import Mathlib

/-!
Shallow embedding of the NeuroPhenom audio/transcription pipeline and
annotation engine, translated from the TypeScript sources:

* `src/unnamed/part_003` — incremental turn assembler
  (`updateIncrementalTranscript` / `finalizeTurn` / `endSession`);
* `src/components/LiveInterviewSession.tsx` — per-speaker-ref variant
  (`onmessage` turnComplete handler, `endSession`), PCM codec
  (`createBlob` / `decodeAudioData`);
* `src/unnamed/part_004` — audio output scheduling with `sourcesRef`
  and the `interrupted` handler;
* `src/unnamed/part_005` / `part_006` — `renderSegmentText`;
* `src/components/AnalysisView.tsx` — annotation deletion by id.

Elapsed times (seconds) and audio sample values are modelled as rationals;
JS strings are modelled as `List Char` (sequences of code units).
-/

namespace NeuroPhenom

/-- Speaker tag: the source uses the string literals 'AI' and 'Interviewee'. -/
inductive Speaker where
  | AI
  | Interviewee
deriving DecidableEq, Repr

/-- `SpeakerSegment` from `types`: `{ speaker, text, startTime }`.
`startTime` is seconds since session start (`(Date.now() - sessionStartTimeRef.current) / 1000`). -/
structure SpeakerSegment where
  speaker : Speaker
  text : List Char
  startTime : ℚ
deriving DecidableEq, Repr

/-! ## Turn assembler — `src/unnamed/part_003`

`currentTurnRef` holds `{ speaker: 'AI' | 'Interviewee' | null, text, id }` and
`transcriptHistoryRef` the finalized turns.  The `id` field of `currentTurnRef`
(a `crypto.randomUUID()`) only keys the live-UI list `liveTranscript` and is
omitted; `liveTranscript` itself (mirrors of the same data for display) is
likewise omitted.  The wall clock is made explicit: each operation takes `now`,
the elapsed seconds at which it runs. -/

namespace Incremental

/-- `currentTurnRef` (speaker, text) together with `transcriptHistoryRef`. -/
structure TurnState where
  speaker : Option Speaker
  text : List Char
  history : List SpeakerSegment
deriving DecidableEq, Repr

/-- Initial refs: `currentTurnRef = { speaker: null, text: '', id: null }`,
`transcriptHistoryRef = []`. -/
def initState : TurnState := ⟨none, [], []⟩

/-- `finalizeTurn` (part_003 lines 161–172): bail out when the current text is
empty (falsy) or the speaker is `null`; otherwise push
`{ speaker, text, startTime: (Date.now() - sessionStart)/1000 }` and reset
`currentTurnRef`. -/
def finalizeTurn (now : ℚ) (st : TurnState) : TurnState :=
  match st.speaker with
  | none => st
  | some sp =>
      if st.text = [] then st
      else ⟨none, [], st.history ++ [⟨sp, st.text, now⟩]⟩

/-- `updateIncrementalTranscript` (part_003 lines 144–159): on a speaker change
finalize the previous turn (if any) and restart the buffer with the incoming
fragment; otherwise append the fragment text. -/
def updateIncrementalTranscript (sp : Speaker) (txt : List Char) (now : ℚ)
    (st : TurnState) : TurnState :=
  if st.speaker ≠ some sp then
    let st' := if st.speaker ≠ none then finalizeTurn now st else st
    { st' with speaker := some sp, text := txt }
  else
    { st with text := st.text ++ txt }

/-- Feed a sequence of transcript fragments `(speakerClass, text, arrivalTime)`
through `updateIncrementalTranscript`, in arrival order. -/
def feedFragments (frags : List (Speaker × List Char × ℚ)) (st : TurnState) :
    TurnState :=
  frags.foldl (fun s f => updateIncrementalTranscript f.1 f.2.1 f.2.2 s) st

/-- `endSession` (part_003 lines 174–178): `finalizeTurn()` then hand
`transcriptHistoryRef.current` to `onComplete`. -/
def endSession (now : ℚ) (st : TurnState) : List SpeakerSegment :=
  (finalizeTurn now st).history

end Incremental

/-! ## Per-speaker-ref variant — `src/components/LiveInterviewSession.tsx`

Here there is no speaker-change finalization: `currentOutputTranscriptionRef`
and `currentInputTranscriptionRef` accumulate independently and are flushed
only by a `turnComplete` message (lines 109–123); `endSession` (lines 140–143)
closes the transport and returns `transcriptHistoryRef.current` as is. -/

namespace TurnCompleteVariant

/-- `currentInputTranscriptionRef`, `currentOutputTranscriptionRef`,
`transcriptHistoryRef`. -/
structure LiveState where
  currentInput : List Char
  currentOutput : List Char
  history : List SpeakerSegment
deriving DecidableEq, Repr

/-- All three refs start empty. -/
def initState : LiveState := ⟨[], [], []⟩

/-- `if (message.serverContent?.inputTranscription) currentInputTranscriptionRef.current += ...text`. -/
def handleInputTranscription (txt : List Char) (st : LiveState) : LiveState :=
  { st with currentInput := st.currentInput ++ txt }

/-- `if (message.serverContent?.outputTranscription) currentOutputTranscriptionRef.current += ...text`. -/
def handleOutputTranscription (txt : List Char) (st : LiveState) : LiveState :=
  { st with currentOutput := st.currentOutput ++ txt }

/-- `turnComplete` handler (lines 111–123): `ts` is computed once; a non-empty
(truthy) pending input transcription is pushed as an `Interviewee` turn, then a
non-empty pending output transcription as an `AI` turn, both with `startTime = ts`;
both refs are cleared. -/
def handleTurnComplete (ts : ℚ) (st : LiveState) : LiveState :=
  let h1 := if st.currentInput ≠ [] then
      st.history ++ [⟨Speaker.Interviewee, st.currentInput, ts⟩]
    else st.history
  let h2 := if st.currentOutput ≠ [] then
      h1 ++ [⟨Speaker.AI, st.currentOutput, ts⟩]
    else h1
  ⟨[], [], h2⟩

/-- `endSession` (lines 140–143): close the session and return
`transcriptHistoryRef.current`; no finalization of the pending refs. -/
def endSession (st : LiveState) : List SpeakerSegment :=
  st.history

end TurnCompleteVariant

/-- Concatenation of fragment texts in arrival order (no separator). -/
def concatTexts : List (List Char) → List Char
  | [] => []
  | t :: ts => t ++ concatTexts ts

namespace Incremental

/-- Feeding same-speaker fragments into a state already owned by that speaker
appends each fragment's text to the running buffer; history is untouched. -/
theorem feed_same_speaker (sp : Speaker) :
    ∀ (frags : List (List Char × ℚ)) (txt : List Char) (h : List SpeakerSegment),
      feedFragments (frags.map fun f => (sp, f.1, f.2)) ⟨some sp, txt, h⟩
        = ⟨some sp, txt ++ concatTexts (frags.map Prod.fst), h⟩ := by
  intro frags
  induction frags with
  | nil => intro txt h; simp [feedFragments, concatTexts]
  | cons f rest ih =>
      intro txt h
      have step : updateIncrementalTranscript sp f.1 f.2 ⟨some sp, txt, h⟩
          = ⟨some sp, txt ++ f.1, h⟩ := by
        simp [updateIncrementalTranscript]
      calc feedFragments ((f :: rest).map fun f => (sp, f.1, f.2)) ⟨some sp, txt, h⟩
          = feedFragments (rest.map fun f => (sp, f.1, f.2))
              (updateIncrementalTranscript sp f.1 f.2 ⟨some sp, txt, h⟩) := rfl
        _ = feedFragments (rest.map fun f => (sp, f.1, f.2)) ⟨some sp, txt ++ f.1, h⟩ := by
              rw [step]
        _ = ⟨some sp, txt ++ concatTexts ((f :: rest).map Prod.fst), h⟩ := by
              rw [ih]; simp [concatTexts]

/-- Feeding a non-empty same-speaker fragment sequence from the initial state
leaves the assembler holding the full concatenation and an empty history. -/
theorem feed_from_init (sp : Speaker) (f : List Char × ℚ)
    (rest : List (List Char × ℚ)) :
    feedFragments (((f :: rest)).map fun g => (sp, g.1, g.2)) initState
      = ⟨some sp, concatTexts ((f :: rest).map Prod.fst), []⟩ := by
  have step : updateIncrementalTranscript sp f.1 f.2 initState
      = ⟨some sp, f.1, []⟩ := by
    simp [updateIncrementalTranscript, initState]
  calc feedFragments ((f :: rest).map fun g => (sp, g.1, g.2)) initState
      = feedFragments (rest.map fun g => (sp, g.1, g.2))
          (updateIncrementalTranscript sp f.1 f.2 initState) := rfl
    _ = feedFragments (rest.map fun g => (sp, g.1, g.2)) ⟨some sp, f.1, []⟩ := by
          rw [step]
    _ = ⟨some sp, concatTexts ((f :: rest).map Prod.fst), []⟩ := by
          rw [feed_same_speaker]; simp [concatTexts]

/-- Feeding strictly alternating, non-empty fragments into a state whose
buffer is non-empty finalizes one turn per incoming fragment (stamped with the
fragment's arrival time) and one more at `endSession`. -/
theorem feed_alternating (tEnd : ℚ) :
    ∀ (frags : List (Speaker × List Char × ℚ)) (s : Speaker) (txt : List Char)
      (h : List SpeakerSegment),
      txt ≠ [] → (∀ f ∈ frags, f.2.1 ≠ []) →
      List.Chain (fun a b => a ≠ b) s (frags.map Prod.fst) →
      ∃ z, endSession tEnd (feedFragments frags ⟨some s, txt, h⟩) = h ++ z ∧
        z.map SpeakerSegment.startTime = frags.map (fun f => f.2.2) ++ [tEnd] := by
  intro frags
  induction frags with
  | nil =>
      intro s txt h htxt _ _
      refine ⟨[⟨s, txt, tEnd⟩], ?_, by simp⟩
      simp [endSession, feedFragments, finalizeTurn, htxt]
  | cons f rest ih =>
      intro s txt h htxt hne hch
      have hch' : ¬s = f.1 ∧ List.Chain (fun a b => ¬a = b) f.1 (rest.map Prod.fst) := by
        simpa using hch
      have hfs : f.1 ≠ s := fun e => hch'.1 e.symm
      have step : updateIncrementalTranscript f.1 f.2.1 f.2.2 ⟨some s, txt, h⟩
          = ⟨some f.1, f.2.1, h ++ [⟨s, txt, f.2.2⟩]⟩ := by
        simp [updateIncrementalTranscript, finalizeTurn, hfs, hch'.1, htxt]
      have hchain' : List.Chain (fun a b => a ≠ b) f.1 (rest.map Prod.fst) := hch'.2
      obtain ⟨z, hz, hmap⟩ := ih f.1 f.2.1 (h ++ [⟨s, txt, f.2.2⟩])
        (hne f (by simp)) (fun g hg => hne g (by simp [hg])) hchain'
      refine ⟨⟨s, txt, f.2.2⟩ :: z, ?_, by simp [hmap]⟩
      have : feedFragments (f :: rest) ⟨some s, txt, h⟩
          = feedFragments rest ⟨some f.1, f.2.1, h ++ [⟨s, txt, f.2.2⟩]⟩ := by
        show feedFragments rest (updateIncrementalTranscript f.1 f.2.1 f.2.2 ⟨some s, txt, h⟩) = _
        rw [step]
      rw [endSession] at hz ⊢
      rw [this, hz]
      simp

end Incremental

/-! ## Claim theorems: turn assembler -/

/-- C1 (amended): in the incremental assembler (part_003), for every
same-speaker fragment sequence whose concatenated text is non-empty,
`endSession` yields exactly one finalized turn whose text is the concatenation
of the fragment texts in arrival order, with nothing inserted or dropped; a
sequence with empty concatenation yields no turn at all; and in the
LiveInterviewSession.tsx variant `endSession` performs no force-finalization,
returning the already-finalized history unchanged. -/
theorem c1_same_speaker_drain (sp : Speaker) (frags : List (List Char × ℚ))
    (tEnd : ℚ) (hne : concatTexts (frags.map Prod.fst) ≠ []) :
    Incremental.endSession tEnd
        (Incremental.feedFragments (frags.map fun f => (sp, f.1, f.2))
          Incremental.initState)
      = [⟨sp, concatTexts (frags.map Prod.fst), tEnd⟩]
    ∧ Incremental.endSession tEnd (Incremental.feedFragments [] Incremental.initState) = []
    ∧ ∀ st : TurnCompleteVariant.LiveState,
        TurnCompleteVariant.endSession st = st.history := by
  refine ⟨?_, by simp [Incremental.endSession, Incremental.feedFragments,
    Incremental.finalizeTurn, Incremental.initState], fun _ => rfl⟩
  match frags with
  | [] => exact absurd rfl hne
  | f :: rest =>
      rw [Incremental.feed_from_init]
      have hne' : concatTexts (f.1 :: rest.map Prod.fst) ≠ [] := by simpa using hne
      simp [Incremental.endSession, Incremental.finalizeTurn, hne']

/-- C1 witness: two fragments "Hello " and "there." from the AI, force-finalized
at elapsed 7 seconds, yield the single turn "Hello there.". -/
theorem c1_same_speaker_drain_witness :
    Incremental.endSession 7
        (Incremental.feedFragments
          ([("Hello ".toList, (1 : ℚ)), ("there.".toList, 2)].map fun f => (Speaker.AI, f.1, f.2))
          Incremental.initState)
      = [⟨Speaker.AI, "Hello there.".toList, 7⟩]
    ∧ Incremental.endSession 7 (Incremental.feedFragments [] Incremental.initState) = []
    ∧ ∀ st : TurnCompleteVariant.LiveState,
        TurnCompleteVariant.endSession st = st.history :=
  c1_same_speaker_drain Speaker.AI [("Hello ".toList, 1), ("there.".toList, 2)] 7
    (by decide)

/-- C1 counterexample: in the LiveInterviewSession.tsx variant (cited by the
claim), feeding one fragment "Hello" and then ending the session yields zero
finalized turns, not one — its `endSession` never finalizes the pending
transcription refs. -/
theorem c1_counterexample :
    TurnCompleteVariant.endSession
        (TurnCompleteVariant.handleOutputTranscription "Hello".toList
          TurnCompleteVariant.initState)
      = []
    ∧ ([] : List SpeakerSegment).length ≠ 1 := by
  constructor
  · rfl
  · decide

/-- C2 (amended): a finalized turn's recorded `startTime` equals the elapsed
time at which the turn was finalized (turn-complete signal, speaker change, or
session end), regardless of the arrival times of its fragments — not the time
at which the turn began being produced. -/
theorem c2_startTime_is_finalization_time (sp : Speaker)
    (frags : List (List Char × ℚ)) (tFinal : ℚ)
    (hne : concatTexts (frags.map Prod.fst) ≠ []) :
    (Incremental.finalizeTurn tFinal
        (Incremental.feedFragments (frags.map fun f => (sp, f.1, f.2))
          Incremental.initState)).history
      = [⟨sp, concatTexts (frags.map Prod.fst), tFinal⟩] := by
  match frags with
  | [] => exact absurd rfl hne
  | f :: rest =>
      rw [Incremental.feed_from_init]
      have hne' : concatTexts (f.1 :: rest.map Prod.fst) ≠ [] := by simpa using hne
      simp [Incremental.finalizeTurn, hne']

/-- C2 witness: a fragment arriving at elapsed 1 s, finalized at elapsed 5 s,
is recorded with `startTime = 5`. -/
theorem c2_startTime_witness :
    (Incremental.finalizeTurn 5
        (Incremental.feedFragments
          ([("hi".toList, (1 : ℚ))].map fun f => (Speaker.AI, f.1, f.2))
          Incremental.initState)).history
      = [⟨Speaker.AI, "hi".toList, 5⟩] :=
  c2_startTime_is_finalization_time Speaker.AI [("hi".toList, 1)] 5 (by decide)

/-- C2 counterexample: a turn whose sole fragment arrived at elapsed 1 s and
which is finalized at elapsed 5 s is recorded with `startTime = 5`, the
finalization time, not 1, the time the turn began being produced. -/
theorem c2_counterexample :
    (Incremental.finalizeTurn 5
        (Incremental.updateIncrementalTranscript Speaker.AI "hi".toList 1
          Incremental.initState)).history
      = [⟨Speaker.AI, "hi".toList, 5⟩]
    ∧ (5 : ℚ) ≠ 1 := by
  constructor
  · rfl
  · decide

/-- C7 (amended): in the incremental assembler (part_003), for every fragment
sequence that alternates speaker class on every fragment, in which every
fragment's text is non-empty, fragments arrive at non-decreasing elapsed times,
and the session ends no earlier than the last fragment, the number of finalized
turns equals the number of fragments and the finalized `startTime` values are
non-decreasing. -/
theorem c7_alternating_turn_count (frags : List (Speaker × List Char × ℚ))
    (tEnd : ℚ)
    (hne : ∀ f ∈ frags, f.2.1 ≠ [])
    (halt : List.Chain' (fun f g => f.1 ≠ g.1) frags)
    (hmono : List.Chain' (fun f g => f.2.2 ≤ g.2.2) frags)
    (hend : ∀ f ∈ frags, f.2.2 ≤ tEnd) :
    (Incremental.endSession tEnd
        (Incremental.feedFragments frags Incremental.initState)).length
      = frags.length
    ∧ List.Chain' (fun a b => a.startTime ≤ b.startTime)
        (Incremental.endSession tEnd
          (Incremental.feedFragments frags Incremental.initState)) := by
  match frags with
  | [] =>
      constructor
      · rfl
      · simp [Incremental.endSession, Incremental.feedFragments,
          Incremental.finalizeTurn, Incremental.initState]
  | f :: rest =>
      have step : Incremental.updateIncrementalTranscript f.1 f.2.1 f.2.2
          Incremental.initState = ⟨some f.1, f.2.1, []⟩ := by
        simp [Incremental.updateIncrementalTranscript, Incremental.initState]
      have hfeed : Incremental.feedFragments (f :: rest) Incremental.initState
          = Incremental.feedFragments rest ⟨some f.1, f.2.1, []⟩ := by
        show Incremental.feedFragments rest
          (Incremental.updateIncrementalTranscript f.1 f.2.1 f.2.2 Incremental.initState) = _
        rw [step]
      have hchain : List.Chain (fun a b => a ≠ b) f.1 (rest.map Prod.fst) := by
        rw [List.chain_map]
        exact halt
      obtain ⟨z, hz, hmap⟩ := Incremental.feed_alternating tEnd rest f.1 f.2.1 []
        (hne f (by simp)) (fun g hg => hne g (by simp [hg])) hchain
      rw [hfeed, hz]
      simp only [List.nil_append]
      constructor
      · have : (z.map SpeakerSegment.startTime).length
            = (rest.map (fun f => f.2.2) ++ [tEnd]).length := by rw [hmap]
        simpa using this
      · refine (List.chain'_map SpeakerSegment.startTime).mp ?_
        rw [hmap, List.chain'_append]
        refine ⟨?_, by simp, ?_⟩
        · exact (List.chain'_map _).mpr hmono.tail
        · intro x hx y hy
          obtain ⟨hne', hlast⟩ := List.mem_getLast?_eq_getLast hx
          have hxmem : x ∈ rest.map (fun f => f.2.2) := hlast ▸ List.getLast_mem hne'
          obtain ⟨g, hg, hgx⟩ := List.mem_map.mp hxmem
          simp only [List.head?_cons, Option.mem_def, Option.some.injEq] at hy
          subst hy
          exact hgx ▸ hend g (by simp [hg])

/-- C7 witness: two alternating non-empty fragments at elapsed times 1 and 2,
drained at elapsed 3, yield two turns with non-decreasing start times. -/
theorem c7_alternating_turn_count_witness :
    (Incremental.endSession 3
        (Incremental.feedFragments
          [(Speaker.AI, "Hello".toList, (1 : ℚ)), (Speaker.Interviewee, "Hi".toList, 2)]
          Incremental.initState)).length = 2
    ∧ List.Chain' (fun a b => a.startTime ≤ b.startTime)
        (Incremental.endSession 3
          (Incremental.feedFragments
            [(Speaker.AI, "Hello".toList, (1 : ℚ)), (Speaker.Interviewee, "Hi".toList, 2)]
            Incremental.initState)) := by
  have := c7_alternating_turn_count
    [(Speaker.AI, "Hello".toList, (1 : ℚ)), (Speaker.Interviewee, "Hi".toList, 2)] 3
    (by decide)
    (by rw [List.chain'_cons]; exact ⟨by decide, List.chain'_singleton _⟩)
    (by rw [List.chain'_cons]; exact ⟨by norm_num, List.chain'_singleton _⟩)
    (by norm_num)
  simpa using this

/-- C7 counterexample: a single fragment with empty text (the sequence
trivially alternates on every fragment) yields zero finalized turns, not one —
`finalizeTurn` drops a pending turn whose text is empty. -/
theorem c7_counterexample :
    (Incremental.endSession 2
        (Incremental.feedFragments [(Speaker.AI, [], (1 : ℚ))]
          Incremental.initState)).length = 0
    ∧ (0 : ℕ) ≠ 1 := by
  constructor
  · rfl
  · decide

/-- C10: on a turn-complete signal, a non-empty pending Interviewee (input)
transcription is appended to the turn history before a non-empty pending AI
(output) transcription, both appended turns carry the identical `startTime`
(the elapsed time at the signal), an empty pending transcription produces no
turn, and both pending refs are cleared. -/
theorem c10_turnComplete_order (st : TurnCompleteVariant.LiveState) (ts : ℚ) :
    (TurnCompleteVariant.handleTurnComplete ts st).history
      = st.history
        ++ (if st.currentInput = [] then []
            else [⟨Speaker.Interviewee, st.currentInput, ts⟩])
        ++ (if st.currentOutput = [] then []
            else [⟨Speaker.AI, st.currentOutput, ts⟩])
    ∧ (TurnCompleteVariant.handleTurnComplete ts st).currentInput = []
    ∧ (TurnCompleteVariant.handleTurnComplete ts st).currentOutput = [] := by
  refine ⟨?_, rfl, rfl⟩
  show (let h1 := if st.currentInput ≠ [] then
          st.history ++ [⟨Speaker.Interviewee, st.currentInput, ts⟩] else st.history
        let h2 := if st.currentOutput ≠ [] then
          h1 ++ [⟨Speaker.AI, st.currentOutput, ts⟩] else h1
        h2) = _
  by_cases hin : st.currentInput = [] <;> by_cases hout : st.currentOutput = [] <;>
    simp [hin, hout]

/-! ## PCM codec — `createBlob` / `decodeAudioData`
(`src/components/LiveInterviewSession.tsx` lines 51–67, identical in
part_003/part_004)

`createBlob` does `int16[i] = data[i] * 32768` on an `Int16Array`: JS converts
the float via ToInt16 — truncation toward zero followed by wrapping into
[-32768, 32767] — with no clamping.  The bytes of the `Int16Array` are the
little-endian byte pairs of each element.  `decodeAudioData` views the byte
array as an `Int16Array` (throwing a `RangeError` when the byte length is not
a multiple of 2) and divides each element by 32768.  Samples are modelled as
rationals. -/

/-- Truncation toward zero, as JS `ToInt16` first truncates the float. -/
def truncQ (q : ℚ) : ℤ := if 0 ≤ q then ⌊q⌋ else ⌈q⌉

/-- Wrap an integer into the signed 16-bit range, as JS `ToInt16`:
take the value mod 2^16 and subtract 2^16 when the result is ≥ 2^15. -/
def wrap16 (n : ℤ) : ℤ :=
  if 32768 ≤ n % 65536 then n % 65536 - 65536 else n % 65536

/-- JS `Int16Array` element assignment (`ToInt16`). -/
def toInt16 (q : ℚ) : ℤ := wrap16 (truncQ q)

/-- `createBlob` per sample: `int16[i] = data[i] * 32768`. -/
def createBlobInts (samples : List ℚ) : List ℤ :=
  samples.map fun x => toInt16 (x * 32768)

/-- Little-endian byte pair of a signed 16-bit value, as laid out in the
`Int16Array`'s backing buffer. -/
def int16ToBytesLE (n : ℤ) : List ℕ :=
  let u := (n % 65536).toNat
  [u % 256, u / 256]

/-- Byte serialization of the encoded samples
(`new Uint8Array(int16.buffer)`). -/
def createBlobBytes : List ℚ → List ℕ
  | [] => []
  | x :: xs => int16ToBytesLE (toInt16 (x * 32768)) ++ createBlobBytes xs

/-- Reinterpret a 16-bit unsigned value as signed (two's complement view an
`Int16Array` takes of its buffer). -/
def toSigned16 (u : ℕ) : ℤ := if 32768 ≤ u then (u : ℤ) - 65536 else (u : ℤ)

/-- `new Int16Array(data.buffer)`: consecutive little-endian byte pairs. -/
def bytesToInt16LE : List ℕ → List ℤ
  | b0 :: b1 :: rest => toSigned16 (b0 % 256 + 256 * (b1 % 256)) :: bytesToInt16LE rest
  | _ => []

/-- The JS error raised by `new Int16Array(buffer)` when the buffer's byte
length is not a multiple of 2; the only failure `decodeAudioData` can raise
(the source defines no MalformedAudioData error). -/
inductive AudioDecodeError where
  | rangeError
deriving DecidableEq, Repr

/-- `decodeAudioData` (lines 51–60): view the bytes as an `Int16Array`
(`RangeError` on odd byte length), compute `frameCount = dataInt16.length /
numChannels`, and fill each channel with `dataInt16[i * numChannels + channel]
/ 32768.0`.  The result is one sample list per channel. -/
def decodeAudioDataQ (bytes : List ℕ) (numChannels : ℕ) :
    Except AudioDecodeError (List (List ℚ)) :=
  if bytes.length % 2 ≠ 0 then .error .rangeError
  else
    let ints := bytesToInt16LE bytes
    let frameCount := ints.length / numChannels
    .ok ((List.range numChannels).map fun ch =>
      (List.range frameCount).map fun i =>
        ((ints.getD (i * numChannels + ch) 0 : ℤ) : ℚ) / 32768)

/-! ## Audio output scheduler — `src/unnamed/part_004` `onmessage`
(lines 117–130; `src/components/LiveInterviewSession.tsx` lines 99–108 is the
same scheduling without the `sourcesRef` bookkeeping)

State: `nextStartTimeRef` and `sourcesRef` (the set of in-flight
`AudioBufferSourceNode`s, modelled by ids in insertion order).  On each audio
message: `nextStartTime = max(nextStartTime, ctx.currentTime)`; decode; start
the source at `nextStartTime`; advance `nextStartTime` by the buffer's
duration; add the source to the set. -/

structure SchedulerState where
  nextStartTime : ℚ
  activeSources : List ℕ
deriving DecidableEq, Repr

/-- Initial scheduler state: `nextStartTimeRef = 0`, no sources. -/
def initSched : SchedulerState := ⟨0, []⟩

/-- One audio buffer of duration `dur` scheduled at playback-clock time
`clock`; returns the time the source is started at and the new state. -/
def enqueueBuffer (clock dur : ℚ) (srcId : ℕ) (st : SchedulerState) :
    ℚ × SchedulerState :=
  let start := max st.nextStartTime clock
  (start, ⟨start + dur, st.activeSources ++ [srcId]⟩)

/-- `'ended'` listener: `sourcesRef.current.delete(source)`. -/
def onSourceEnded (srcId : ℕ) (st : SchedulerState) : SchedulerState :=
  { st with activeSources := st.activeSources.filter (fun s => s ≠ srcId) }

/-- Enqueue a run of buffer durations, all observed at the same playback-clock
time (messages arriving back-to-back); returns the scheduled start times in
order. -/
def scheduleAll (clock : ℚ) : List ℚ → SchedulerState → List ℚ × SchedulerState
  | [], st => ([], st)
  | d :: ds, st =>
      let p := enqueueBuffer clock d st.activeSources.length st
      let rest := scheduleAll clock ds p.2
      (p.1 :: rest.1, rest.2)

/-- The start times the spec's gapless invariant prescribes for buffers
enqueued at clock time 0: 0, then each previous start plus the previous
duration (spec §4.2 / §8 scenario).  Spec-side comparison definition. -/
def specBackToBackStarts : List ℚ → List ℚ
  | [] => []
  | d :: ds => 0 :: (specBackToBackStarts ds).map (fun s => d + s)

/-- `interrupted` handler (part_004 lines 160–166): stop every source in
`sourcesRef`, clear the set, and set `nextStartTimeRef.current = 0`.  Returns
the handles that were stopped together with the new state. -/
def onInterrupted (st : SchedulerState) : List ℕ × SchedulerState :=
  (st.activeSources, ⟨0, []⟩)

/-- The audio branch of `onmessage`, including its failure behaviour: the
handler first bumps `nextStartTime` to `max(nextStartTime, clock)`, then
decodes; if `decodeAudioData` throws (odd byte length) the exception escapes
the handler — no source is started, but the bump has already happened.  On
success the source is started and `nextStartTime` advanced by
`frameCount / 24000` (24 kHz playback). -/
def handleAudioChunk (clock : ℚ) (bytes : List ℕ) (srcId : ℕ)
    (st : SchedulerState) : SchedulerState × Option AudioDecodeError :=
  let st1 : SchedulerState := { st with nextStartTime := max st.nextStartTime clock }
  match decodeAudioDataQ bytes 1 with
  | .error e => (st1, some e)
  | .ok channels =>
      (⟨st1.nextStartTime + ((channels.headD []).length : ℚ) / 24000,
        st1.activeSources ++ [srcId]⟩, none)

/-! ## Claim theorems: output scheduler -/

/-- From a state whose `nextStartTime` is non-negative, enqueuing non-negative
durations at playback-clock time 0 schedules them back-to-back starting at
`nextStartTime`. -/
theorem scheduleAll_zero_clock :
    ∀ (durs : List ℚ) (n : ℚ) (srcs : List ℕ),
      (∀ d ∈ durs, 0 ≤ d) → 0 ≤ n →
      (scheduleAll 0 durs ⟨n, srcs⟩).1
        = (specBackToBackStarts durs).map (fun s => n + s) := by
  intro durs
  induction durs with
  | nil => intro n srcs _ _; rfl
  | cons d ds ih =>
      intro n srcs hd hn
      have hmax : max n (0 : ℚ) = n := max_eq_left hn
      have hrec := ih (n + d) (srcs ++ [srcs.length])
        (fun x hx => hd x (by simp [hx]))
        (by have := hd d (by simp); linarith)
      show ((max n 0) :: (scheduleAll 0 ds ⟨max n 0 + d, srcs ++ [srcs.length]⟩).1)
          = (specBackToBackStarts (d :: ds)).map (fun s => n + s)
      rw [hmax, hrec]
      simp only [specBackToBackStarts, List.map_cons, List.map_map, add_zero]
      have htail : ((specBackToBackStarts ds).map ((fun s => n + s) ∘ fun s => d + s))
          = (specBackToBackStarts ds).map (fun s => n + d + s) := by
        apply List.map_congr_left
        intro a _
        simp only [Function.comp_apply]
        ring
      rw [htail]

/-- C3: each enqueued buffer is scheduled to start at
`max(nextStartTime, currentPlaybackClockTime)` and `nextStartTime` is then
advanced by the buffer's duration (and the source handle recorded); hence
buffers of non-negative duration enqueued consecutively at clock time 0 play
back-to-back in enqueue order, and in particular durations 1.0 s, 0.5 s, 2.0 s
are scheduled at 0, 1.0, 1.5. -/
theorem c3_scheduler_gapless :
    (∀ (clock dur : ℚ) (srcId : ℕ) (st : SchedulerState),
        enqueueBuffer clock dur srcId st
          = (max st.nextStartTime clock,
             ⟨max st.nextStartTime clock + dur, st.activeSources ++ [srcId]⟩))
    ∧ (∀ durs : List ℚ, (∀ d ∈ durs, 0 ≤ d) →
        (scheduleAll 0 durs initSched).1 = specBackToBackStarts durs)
    ∧ (scheduleAll 0 [1, 1/2, 2] initSched).1 = [0, 1, 3/2] := by
  refine ⟨fun _ _ _ _ => rfl, ?_, ?_⟩
  · intro durs hd
    have := scheduleAll_zero_clock durs 0 [] hd le_rfl
    simpa [initSched] using this
  · have h := scheduleAll_zero_clock [1, 1/2, 2] 0 [] (by norm_num) le_rfl
    show (scheduleAll 0 [1, 1/2, 2] (⟨0, []⟩ : SchedulerState)).1 = [0, 1, 3/2]
    rw [h]
    norm_num [specBackToBackStarts]

/-- C3 witness: the concrete run with durations 1.0 s, 0.5 s, 2.0 s at clock
time 0 follows from the universal back-to-back property. -/
theorem c3_scheduler_gapless_witness :
    (scheduleAll 0 [1, 1/2, 2] initSched).1 = specBackToBackStarts [1, 1/2, 2] :=
  c3_scheduler_gapless.2.1 [1, 1/2, 2] (by norm_num)

/-- C4 counterexample: with two sources in flight, `nextStartTime = 10` and the
playback clock at 5, the `interrupted` handler resets `nextStartTime` to 0,
not to the current playback-clock time 5 as the claim states. -/
theorem c4_counterexample :
    (onInterrupted ⟨10, [0, 1]⟩).2.nextStartTime = 0 ∧ (0 : ℚ) ≠ 5 := by
  constructor
  · rfl
  · decide

/-- C4 (amended): the `interrupted` handler stops every handle in
`activeSources`, clears the set, and resets `nextStartTime` to 0 (not to the
playback-clock time); because `enqueue` schedules at
`max(nextStartTime, clock)`, the next enqueued buffer still starts immediately
at the current (non-negative) playback-clock time rather than at the old
schedule. -/
theorem c4_interrupt_amended (st : SchedulerState) :
    (onInterrupted st).1 = st.activeSources
    ∧ (onInterrupted st).2.activeSources = []
    ∧ (onInterrupted st).2.nextStartTime = 0
    ∧ ∀ (clock dur : ℚ) (srcId : ℕ), 0 ≤ clock →
        (enqueueBuffer clock dur srcId (onInterrupted st).2).1 = clock := by
  refine ⟨rfl, rfl, rfl, ?_⟩
  intro clock dur srcId hclock
  show max (0 : ℚ) clock = clock
  exact max_eq_right hclock

/-- C4 witness: interrupting the state with sources 0 and 1 in flight and
`nextStartTime = 10` stops both, and a buffer enqueued afterwards at clock
time 5 starts at 5. -/
theorem c4_interrupt_amended_witness :
    (onInterrupted ⟨10, [0, 1]⟩).1 = [0, 1]
    ∧ (onInterrupted ⟨10, [0, 1]⟩).2.activeSources = []
    ∧ (onInterrupted ⟨10, [0, 1]⟩).2.nextStartTime = 0
    ∧ (enqueueBuffer 5 2 7 (onInterrupted ⟨10, [0, 1]⟩).2).1 = 5 := by
  have h := c4_interrupt_amended ⟨10, [0, 1]⟩
  exact ⟨h.1, h.2.1, h.2.2.1, h.2.2.2 5 2 7 (by norm_num)⟩

/-! ## Claim theorems: PCM codec -/

/-- `wrap16` is the identity on values already in the signed 16-bit range. -/
theorem wrap16_of_bounds (n : ℤ) (h1 : -32768 ≤ n) (h2 : n ≤ 32767) :
    wrap16 n = n := by
  unfold wrap16
  split <;> omega

/-- `wrap16` always lands in the signed 16-bit range. -/
theorem wrap16_bounds (n : ℤ) : -32768 ≤ wrap16 n ∧ wrap16 n ≤ 32767 := by
  unfold wrap16
  split <;> omega

/-- Serializing a signed 16-bit value to its little-endian byte pair and
viewing the pair as an `Int16Array` element recovers the wrapped value. -/
theorem bytes_roundtrip (n : ℤ) :
    bytesToInt16LE (int16ToBytesLE n) = [wrap16 n] := by
  simp only [int16ToBytesLE, bytesToInt16LE, toSigned16, wrap16,
    List.cons.injEq, and_true]
  split <;> split <;> omega

/-- Decoding the two-byte encoding of a single sample recovers the quantized
value divided by 32768. -/
theorem decode_encode_single (x : ℚ) :
    decodeAudioDataQ (createBlobBytes [x]) 1
      = .ok [[((toInt16 (x * 32768) : ℤ) : ℚ) / 32768]] := by
  have hb : createBlobBytes [x] = int16ToBytesLE (toInt16 (x * 32768)) := by
    simp [createBlobBytes]
  have hints : bytesToInt16LE (int16ToBytesLE (toInt16 (x * 32768)))
      = [toInt16 (x * 32768)] := by
    rw [bytes_roundtrip]
    have hw := wrap16_bounds (truncQ (x * 32768))
    show [wrap16 (wrap16 (truncQ (x * 32768)))] = [wrap16 (truncQ (x * 32768))]
    rw [wrap16_of_bounds _ hw.1 hw.2]
  rw [hb]
  show decodeAudioDataQ [((toInt16 (x * 32768)) % 65536).toNat % 256,
    ((toInt16 (x * 32768)) % 65536).toNat / 256] 1 = _
  unfold decodeAudioDataQ
  rw [if_neg (by simp)]
  have : bytesToInt16LE [((toInt16 (x * 32768)) % 65536).toNat % 256,
      ((toInt16 (x * 32768)) % 65536).toNat / 256] = [toInt16 (x * 32768)] := hints
  rw [this]
  simp [List.range_succ]

/-- Truncation toward zero of `x * 32768` stays in the signed 16-bit range and
commits an error of less than one quantization unit, for `x ∈ [-1, 1)`. -/
theorem truncQ_scaled_bounds (x : ℚ) (h1 : -1 ≤ x) (h2 : x < 1) :
    -32768 ≤ truncQ (x * 32768) ∧ truncQ (x * 32768) ≤ 32767
    ∧ |x * 32768 - (truncQ (x * 32768) : ℚ)| < 1 := by
  set q : ℚ := x * 32768 with hq
  have hq1 : -32768 ≤ q := by rw [hq]; linarith
  have hq2 : q < 32768 := by rw [hq]; linarith
  by_cases h0 : 0 ≤ q
  · have heq : truncQ q = ⌊q⌋ := if_pos h0
    rw [heq]
    have hfl : (0 : ℤ) ≤ ⌊q⌋ := Int.floor_nonneg.mpr h0
    have hfu : ⌊q⌋ < 32768 := Int.floor_lt.mpr (by exact_mod_cast hq2)
    refine ⟨by omega, by omega, ?_⟩
    have hle : (⌊q⌋ : ℚ) ≤ q := Int.floor_le q
    have hlt : q < (⌊q⌋ : ℚ) + 1 := Int.lt_floor_add_one q
    rw [abs_of_nonneg (by linarith)]
    linarith
  · have heq : truncQ q = ⌈q⌉ := if_neg h0
    rw [heq]
    push_neg at h0
    have hcl : (-32768 : ℤ) ≤ ⌈q⌉ := by
      have : ((-32768 : ℤ) : ℚ) ≤ (⌈q⌉ : ℚ) := le_trans (by exact_mod_cast hq1) (Int.le_ceil q)
      exact_mod_cast this
    have hcu : ⌈q⌉ ≤ 0 := Int.ceil_le.mpr (by exact_mod_cast le_of_lt h0)
    refine ⟨hcl, by omega, ?_⟩
    have hle : q ≤ (⌈q⌉ : ℚ) := Int.le_ceil q
    have hlt : (⌈q⌉ : ℚ) < q + 1 := Int.ceil_lt_add_one q
    rw [abs_of_nonpos (by linarith)]
    linarith

/-- C5 (amended): for every sample `x ∈ [-1, 1)`, decoding the 16-bit PCM
encoding of `x` (the `decodeAudioData` / `createBlob` pair) yields a value
within 1/32768 of `x`.  The encoder multiplies by 32768 (not 32767) with no
clamping — JS `ToInt16` truncates and wraps — so the bound fails at `x = 1`,
which wraps to −32768 (see the counterexample). -/
theorem c5_pcm_roundtrip (x : ℚ) (h1 : -1 ≤ x) (h2 : x < 1) :
    ∃ y : ℚ, decodeAudioDataQ (createBlobBytes [x]) 1 = .ok [[y]]
      ∧ |y - x| < 1 / 32768 := by
  obtain ⟨hl, hu, herr⟩ := truncQ_scaled_bounds x h1 h2
  have htoi : toInt16 (x * 32768) = truncQ (x * 32768) :=
    wrap16_of_bounds _ hl hu
  refine ⟨((truncQ (x * 32768) : ℤ) : ℚ) / 32768, ?_, ?_⟩
  · rw [decode_encode_single, htoi]
  · have hx : x = x * 32768 / 32768 := by ring
    have : ((truncQ (x * 32768) : ℤ) : ℚ) / 32768 - x
        = ((truncQ (x * 32768) : ℚ) - x * 32768) / 32768 := by
      rw [hx]; ring
    rw [this, abs_div, abs_of_pos (by norm_num : (0 : ℚ) < 32768)]
    rw [div_lt_div_iff_of_pos_right (by norm_num : (0 : ℚ) < 32768)]
    rw [abs_sub_comm]
    exact herr

/-- C5 witness: the sample 1/3 round-trips through the codec to within
1/32768. -/
theorem c5_pcm_roundtrip_witness :
    ∃ y : ℚ, decodeAudioDataQ (createBlobBytes [1/3]) 1 = .ok [[y]]
      ∧ |y - 1/3| < 1 / 32768 :=
  c5_pcm_roundtrip (1/3) (by norm_num) (by norm_num)

/-- C5 counterexample: the sample `x = 1` (in the claimed domain [-1, 1]) is
encoded as `ToInt16(32768) = -32768` — the encoder multiplies by 32768 with no
clamping — so it decodes to −1, an error of 2, far beyond 1/32768. -/
theorem c5_counterexample :
    decodeAudioDataQ (createBlobBytes [1]) 1 = .ok [[-1]]
    ∧ ¬ (|(-1 : ℚ) - 1| ≤ 1 / 32768)
    ∧ toInt16 (1 * 32768) = -32768 := by
  have ht : toInt16 ((1 : ℚ) * 32768) = -32768 := by
    have h1 : truncQ ((1 : ℚ) * 32768) = 32768 := by
      unfold truncQ
      rw [if_pos (by norm_num)]
      have hc : ((1 : ℚ) * 32768) = ((32768 : ℤ) : ℚ) := by norm_num
      rw [hc, Int.floor_intCast]
    unfold toInt16
    rw [h1]
    decide
  refine ⟨?_, by norm_num, ht⟩
  have h := decode_encode_single 1
  rw [h, ht]
  norm_num

/-- C6 (amended): an inbound packet whose byte length is odd (not a multiple
of `2 * numChannels` with one channel) makes `decodeAudioData` fail with the
`RangeError` that `new Int16Array(buffer)` raises — the code defines no
`MalformedAudioData` error and installs no guard — no buffer is scheduled and
no source added, but by then the handler has already advanced `nextStartTime`
to `max(nextStartTime, clock)`, so the controller state is *not* unchanged by
the bad packet; the handler returns, so subsequent messages are still
processed (from the mutated state). -/
theorem c6_malformed_audio (bytes : List ℕ) (st : SchedulerState) (clock : ℚ)
    (srcId : ℕ) (hodd : bytes.length % 2 = 1) :
    handleAudioChunk clock bytes srcId st
      = ({ st with nextStartTime := max st.nextStartTime clock },
         some .rangeError) := by
  have hd : decodeAudioDataQ bytes 1 = .error .rangeError := by
    unfold decodeAudioDataQ
    rw [if_pos (by omega)]
  unfold handleAudioChunk
  rw [hd]

/-- C6 witness: a one-byte packet at clock time 3 yields the `RangeError` and
leaves the scheduler with `nextStartTime = max 0 3`, no source added. -/
theorem c6_malformed_audio_witness :
    handleAudioChunk 3 [0] 7 ⟨0, []⟩
      = (⟨max 0 3, []⟩, some AudioDecodeError.rangeError) :=
  c6_malformed_audio [0] ⟨0, []⟩ 3 7 (by decide)

/-- C6 counterexample: the bad packet does change the controller state — a
one-byte packet arriving at clock time 3 with `nextStartTime = 0` leaves
`nextStartTime = 3 ≠ 0`, because the handler bumps the schedule clock before
decoding; and the failure is a `RangeError`, there being no
`MalformedAudioData` in the code. -/
theorem c6_counterexample :
    (handleAudioChunk 3 [0] 7 ⟨0, []⟩).1.nextStartTime = 3
    ∧ (3 : ℚ) ≠ 0
    ∧ (handleAudioChunk 3 [0] 7 ⟨0, []⟩).2 = some AudioDecodeError.rangeError := by
  have hd : decodeAudioDataQ [0] 1 = .error .rangeError := by
    unfold decodeAudioDataQ
    rw [if_pos (by decide)]
  have h : handleAudioChunk 3 [0] 7 ⟨0, []⟩
      = (⟨max 0 3, []⟩, some AudioDecodeError.rangeError) := by
    unfold handleAudioChunk
    rw [hd]
  refine ⟨?_, by norm_num, ?_⟩
  · rw [h]
    show max (0 : ℚ) 3 = 3
    exact max_eq_right (by norm_num)
  · rw [h]

/-! ## Annotation engine — `renderSegmentText`
(`src/unnamed/part_006` lines 107–161, `src/unnamed/part_005` lines
1179–1230; identical logic) and annotation deletion by id
(`src/components/AnalysisView.tsx` delete onClick, same in part_006).

`Annotation` from `types` (named `Annot` here):
`{ id, codeId, segmentIndex, startOffset, endOffset, text }`.  JS strings are
`List Char`; `substring` is modelled with its clamping/swapping semantics. -/

structure Annot where
  id : String
  codeId : String
  segmentIndex : ℕ
  startOffset : ℕ
  endOffset : ℕ
  text : List Char
deriving DecidableEq, Repr

/-- JS `String.prototype.substring(a, b)`: clamp both indices to the string
length (negatives cannot arise with `ℕ`) and swap them when `a > b`. -/
def jsSubstring (l : List Char) (a b : ℕ) : List Char :=
  let a' := min a l.length
  let b' := min b l.length
  (l.drop (min a' b')).take (max a' b' - min a' b')

/-- A piece of the rendered segment: bare text (pushed as a plain string) or a
`<mark>` for an annotation's `[startOffset, endOffset)` range, keyed by its
code. -/
inductive Span where
  | plain (text : List Char)
  | highlighted (text : List Char) (codeId : String)
deriving DecidableEq, Repr

/-- Whether a span was pushed as bare text (not a `<mark>`). -/
def Span.isPlain : Span → Bool
  | .plain _ => true
  | .highlighted _ _ => false

/-- The character content of a span. -/
def spanText : Span → List Char
  | .plain t => t
  | .highlighted t _ => t

/-- Concatenation of the span texts in order. -/
def spanConcat : List Span → List Char
  | [] => []
  | s :: rest => spanText s ++ spanConcat rest

/-- The `forEach` walk of `renderSegmentText` plus the trailing push, as a
recursion over the sorted annotations: for each annotation, push the plain gap
`text.substring(lastIndex, startOffset)` when `startOffset > lastIndex`, push
the `<mark>` with `text.substring(startOffset, endOffset)`, and advance
`lastIndex` to `endOffset`; finally push `text.substring(lastIndex)` when
`lastIndex < text.length`. -/
def renderLoop (text : List Char) : ℕ → List Annot → List Span
  | lastIndex, [] =>
      if lastIndex < text.length then [.plain (jsSubstring text lastIndex text.length)]
      else []
  | lastIndex, a :: rest =>
      (if lastIndex < a.startOffset then [.plain (jsSubstring text lastIndex a.startOffset)]
       else [])
      ++ .highlighted (jsSubstring text a.startOffset a.endOffset) a.codeId
        :: renderLoop text a.endOffset rest

/-- `renderSegmentText(text, segmentIndex)`: filter the session's annotations
to this segment, sort by `startOffset` ascending (JS stable sort, modelled by
insertion sort), return a single plain span when there are none, otherwise the
walk from cursor 0. -/
def renderSegmentText (text : List Char) (annots : List Annot)
    (segmentIndex : ℕ) : List Span :=
  let segmentAnnots :=
    List.insertionSort (fun a b => a.startOffset ≤ b.startOffset)
      (annots.filter fun a => a.segmentIndex == segmentIndex)
  if segmentAnnots = [] then [.plain text]
  else renderLoop text 0 segmentAnnots

/-- Annotation delete onClick (`AnalysisView.tsx` lines 158–174, part_006
lines 252–272): `annotations.filter(an => an.id !== a.id)`. -/
def removeAnnotById (annots : List Annot) (targetId : String) : List Annot :=
  annots.filter fun an => an.id != targetId

/-! ## Claim theorems: annotation engine -/

/-- `jsSubstring` on in-range, ordered offsets is plain take-after-drop. -/
theorem jsSubstring_eq (l : List Char) (a b : ℕ) (hab : a ≤ b)
    (hb : b ≤ l.length) :
    jsSubstring l a b = (l.drop a).take (b - a) := by
  have ha' : min a l.length = a := min_eq_left (le_trans hab hb)
  have hb' : min b l.length = b := min_eq_left hb
  show (l.drop (min (min a l.length) (min b l.length))).take
      (max (min a l.length) (min b l.length) - min (min a l.length) (min b l.length))
    = (l.drop a).take (b - a)
  rw [ha', hb', min_eq_left hab, max_eq_right hab]

/-- A substring followed by the rest of the string reassembles the suffix the
substring was cut from. -/
theorem jsSubstring_glue (l : List Char) (a b : ℕ) (hab : a ≤ b)
    (hb : b ≤ l.length) :
    jsSubstring l a b ++ l.drop b = l.drop a := by
  rw [jsSubstring_eq l a b hab hb]
  have h := List.drop_take_append_drop l a (b - a)
  rw [show a + (b - a) = b by omega] at h
  exact h

/-- A substring of a strictly increasing in-range offset pair is non-empty. -/
theorem jsSubstring_ne_nil (l : List Char) (a b : ℕ) (hab : a < b)
    (hb : b ≤ l.length) :
    jsSubstring l a b ≠ [] := by
  rw [jsSubstring_eq l a b (le_of_lt hab) hb]
  intro hcon
  have hlen := congrArg List.length hcon
  simp only [List.length_take, List.length_drop, List.length_nil] at hlen
  omega

/-- `spanConcat` distributes over list append. -/
theorem spanConcat_append : ∀ (l1 l2 : List Span),
    spanConcat (l1 ++ l2) = spanConcat l1 ++ spanConcat l2 := by
  intro l1
  induction l1 with
  | nil => intro l2; rfl
  | cons s rest ih =>
      intro l2
      show spanText s ++ spanConcat (rest ++ l2) = (spanText s ++ spanConcat rest) ++ spanConcat l2
      rw [ih, List.append_assoc]

/-- The render walk over sorted, non-overlapping, in-bounds annotations with
cursor `lastIndex`: the span texts concatenate to the suffix of the text from
`lastIndex`, at most `2N + 1` spans are produced, every plain span is
non-empty (zero-length gaps are omitted), and no two consecutive spans are
both plain. -/
theorem renderLoop_spec (text : List Char) :
    ∀ (annots : List Annot) (lastIndex : ℕ),
      lastIndex ≤ text.length →
      (∀ a ∈ annots, a.startOffset < a.endOffset ∧ a.endOffset ≤ text.length) →
      List.Chain' (fun a b => a.endOffset ≤ b.startOffset) annots →
      (∀ a ∈ annots.head?, lastIndex ≤ a.startOffset) →
      spanConcat (renderLoop text lastIndex annots) = text.drop lastIndex
      ∧ (renderLoop text lastIndex annots).length ≤ 2 * annots.length + 1
      ∧ (∀ s ∈ renderLoop text lastIndex annots, s.isPlain = true → spanText s ≠ [])
      ∧ List.Chain' (fun s t => s.isPlain = false ∨ t.isPlain = false)
          (renderLoop text lastIndex annots) := by
  intro annots
  induction annots with
  | nil =>
      intro lastIndex hle _ _ _
      by_cases hlt : lastIndex < text.length
      · have hr : renderLoop text lastIndex [] =
            [.plain (jsSubstring text lastIndex text.length)] := if_pos hlt
        rw [hr]
        refine ⟨?_, by simp, ?_, by simp⟩
        · show jsSubstring text lastIndex text.length ++ [] = text.drop lastIndex
          rw [List.append_nil, jsSubstring_eq text lastIndex text.length hle le_rfl]
          exact List.take_of_length_le (by simp)
        · intro s hs _
          simp only [List.mem_singleton] at hs
          subst hs
          exact jsSubstring_ne_nil text lastIndex text.length hlt le_rfl
      · have heq : lastIndex = text.length := by omega
        have hr : renderLoop text lastIndex [] = [] := if_neg hlt
        rw [hr]
        refine ⟨?_, by simp, by simp, by simp⟩
        subst heq
        simp [spanConcat]
  | cons a rest ih =>
      intro lastIndex hle hbounds hch hhead
      have ha := hbounds a (by simp)
      have hlast : lastIndex ≤ a.startOffset := hhead a (by simp)
      have hch' := List.chain'_cons'.mp hch
      obtain ⟨hcc, hcrest, hcplain, hcchain⟩ :=
        ih a.endOffset ha.2 (fun b hb => hbounds b (by simp [hb])) hch'.2
          (fun b hb => hch'.1 b hb)
      have hr : renderLoop text lastIndex (a :: rest)
          = (if lastIndex < a.startOffset then
              [.plain (jsSubstring text lastIndex a.startOffset)] else [])
            ++ .highlighted (jsSubstring text a.startOffset a.endOffset) a.codeId
              :: renderLoop text a.endOffset rest := rfl
      have hglue1 : jsSubstring text a.startOffset a.endOffset ++ text.drop a.endOffset
          = text.drop a.startOffset :=
        jsSubstring_glue text a.startOffset a.endOffset (le_of_lt ha.1) ha.2
      by_cases hgap : lastIndex < a.startOffset
      · rw [hr, if_pos hgap]
        refine ⟨?_, ?_, ?_, ?_⟩
        · rw [spanConcat_append]
          show (jsSubstring text lastIndex a.startOffset ++ [])
              ++ (jsSubstring text a.startOffset a.endOffset ++
                  spanConcat (renderLoop text a.endOffset rest))
              = text.drop lastIndex
          rw [List.append_nil, hcc, hglue1,
            jsSubstring_glue text lastIndex a.startOffset (le_of_lt hgap)
              (le_trans (le_of_lt ha.1) ha.2)]
        · simp only [List.length_append, List.length_cons, List.length_nil]
          omega
        · intro s hs hp
          simp only [List.mem_append, List.mem_singleton, List.mem_cons,
            List.not_mem_nil, or_false] at hs
          rcases hs with hs | hs | hs
          · subst hs
            exact jsSubstring_ne_nil text lastIndex a.startOffset hgap
              (le_trans (le_of_lt ha.1) ha.2)
          · subst hs
            simp [Span.isPlain] at hp
          · exact hcplain s hs hp
        · show List.Chain' _ (Span.plain _ :: Span.highlighted _ _ :: _)
          rw [List.chain'_cons]
          exact ⟨Or.inr rfl, List.chain'_cons'.mpr ⟨fun t _ => Or.inl rfl, hcchain⟩⟩
      · rw [hr, if_neg hgap]
        have heq : lastIndex = a.startOffset := by omega
        refine ⟨?_, ?_, ?_, ?_⟩
        · show jsSubstring text a.startOffset a.endOffset ++
              spanConcat (renderLoop text a.endOffset rest) = text.drop lastIndex
          rw [hcc, hglue1, heq]
        · simp only [List.nil_append, List.length_cons]
          omega
        · intro s hs hp
          simp only [List.nil_append, List.mem_cons] at hs
          rcases hs with hs | hs
          · subst hs
            simp [Span.isPlain] at hp
          · exact hcplain s hs hp
        · show List.Chain' _ (Span.highlighted _ _ :: _)
          exact List.chain'_cons'.mpr ⟨fun t _ => Or.inl rfl, hcchain⟩

/-- Non-overlapping annotations with valid ranges are sorted by start offset
as soon as they are pairwise ordered end-before-start. -/
theorem sorted_of_nonoverlap : ∀ (l : List Annot),
    (∀ a ∈ l, a.startOffset < a.endOffset) →
    List.Pairwise (fun a b => a.endOffset ≤ b.startOffset) l →
    List.Sorted (fun a b => a.startOffset ≤ b.startOffset) l := by
  intro l
  induction l with
  | nil => intro _ _; exact List.sorted_nil
  | cons a rest ih =>
      intro hb hp
      rw [List.pairwise_cons] at hp
      refine List.pairwise_cons.mpr ⟨?_, ih (fun x hx => hb x (by simp [hx])) hp.2⟩
      intro b hbmem
      have h1 := hp.1 b hbmem
      have h2 := hb a (by simp)
      omega

/-- C8: `renderSegmentText` on a segment text with pairwise non-overlapping,
in-bounds annotations for that segment, listed in `startOffset` order,
produces at most `2N + 1` spans; concatenating the span texts in order
reproduces the segment text exactly; every plain gap span is non-empty
(zero-length gaps are omitted) when at least one annotation exists; plain and
highlighted spans alternate in the sense that no two consecutive spans are
plain; and with zero annotations the result is exactly one plain span covering
the whole text. -/
theorem c8_render_partition (text : List Char) (annots : List Annot) (i : ℕ)
    (hseg : ∀ a ∈ annots, a.segmentIndex = i)
    (hpair : List.Pairwise (fun a b => a.endOffset ≤ b.startOffset) annots)
    (hbounds : ∀ a ∈ annots, a.startOffset < a.endOffset ∧ a.endOffset ≤ text.length) :
    spanConcat (renderSegmentText text annots i) = text
    ∧ (renderSegmentText text annots i).length ≤ 2 * annots.length + 1
    ∧ (annots ≠ [] → ∀ s ∈ renderSegmentText text annots i,
        s.isPlain = true → spanText s ≠ [])
    ∧ List.Chain' (fun s t => s.isPlain = false ∨ t.isPlain = false)
        (renderSegmentText text annots i)
    ∧ (annots = [] → renderSegmentText text annots i = [.plain text]) := by
  have hfilter : (annots.filter fun a => a.segmentIndex == i) = annots := by
    rw [List.filter_eq_self]
    intro a ha
    simp [hseg a ha]
  have hsorted : List.insertionSort (fun a b => a.startOffset ≤ b.startOffset)
      (annots.filter fun a => a.segmentIndex == i) = annots := by
    rw [hfilter]
    exact List.Sorted.insertionSort_eq
      (sorted_of_nonoverlap annots (fun a ha => (hbounds a ha).1) hpair)
  match hann : annots with
  | [] =>
      have hr : renderSegmentText text [] i = [.plain text] := by
        unfold renderSegmentText
        rw [if_pos]
        simp
      rw [hr]
      refine ⟨by simp [spanConcat, spanText], by simp, by simp, by simp, fun _ => rfl⟩
  | a :: rest =>
      have hr : renderSegmentText text (a :: rest) i
          = renderLoop text 0 (a :: rest) := by
        unfold renderSegmentText
        rw [hann] at hsorted
        rw [hsorted, if_neg (by simp)]
      obtain ⟨h1, h2, h3, h4⟩ := renderLoop_spec text (a :: rest) 0
        (Nat.zero_le _) (hann ▸ hbounds) ((hann ▸ hpair).chain')
        (fun b _ => Nat.zero_le _)
      rw [hr]
      exact ⟨by rw [h1]; rfl, h2, fun _ => h3, h4, by simp⟩

/-- C8 witness: the five-character text `abcde` with the single annotation
`[1, 3)` renders as `[plain "a", mark "bc", plain "de"]`, satisfying all the
partition properties. -/
theorem c8_render_partition_witness :
    spanConcat (renderSegmentText "abcde".toList
        [⟨"a1", "c1", 0, 1, 3, "bc".toList⟩] 0) = "abcde".toList
    ∧ (renderSegmentText "abcde".toList
        [⟨"a1", "c1", 0, 1, 3, "bc".toList⟩] 0).length ≤ 2 * 1 + 1
    ∧ ([(⟨"a1", "c1", 0, 1, 3, "bc".toList⟩ : Annot)] ≠ [] →
        ∀ s ∈ renderSegmentText "abcde".toList
          [⟨"a1", "c1", 0, 1, 3, "bc".toList⟩] 0,
          s.isPlain = true → spanText s ≠ [])
    ∧ List.Chain' (fun s t => s.isPlain = false ∨ t.isPlain = false)
        (renderSegmentText "abcde".toList
          [⟨"a1", "c1", 0, 1, 3, "bc".toList⟩] 0)
    ∧ ([(⟨"a1", "c1", 0, 1, 3, "bc".toList⟩ : Annot)] = [] →
        renderSegmentText "abcde".toList
          [⟨"a1", "c1", 0, 1, 3, "bc".toList⟩] 0 = [.plain "abcde".toList]) :=
  c8_render_partition "abcde".toList [⟨"a1", "c1", 0, 1, 3, "bc".toList⟩] 0
    (by simp) (by simp) (by simp)

/-- C9: removing an annotation by id removes exactly the annotations carrying
that identity and leaves every other annotation unchanged (the result is a
sublist of the original, so surviving annotations keep their order, offsets
and all other fields), and removing the same id a second time is a no-op. -/
theorem c9_remove_by_id (annots : List Annot) (targetId : String) :
    (∀ a, a ∈ removeAnnotById annots targetId ↔ (a ∈ annots ∧ a.id ≠ targetId))
    ∧ (removeAnnotById annots targetId).Sublist annots
    ∧ removeAnnotById (removeAnnotById annots targetId) targetId
        = removeAnnotById annots targetId := by
  refine ⟨?_, List.filter_sublist _, ?_⟩
  · intro a
    unfold removeAnnotById
    rw [List.mem_filter]
    simp [bne_iff_ne]
  · unfold removeAnnotById
    rw [List.filter_eq_self]
    intro a ha
    exact (List.mem_filter.mp ha).2

end NeuroPhenom
